import Mathlib

/-!
Verification of the paginated-discovery-and-classification pipeline of the
mcp-almanac repository.  The definitions below are shallow embeddings of the
TypeScript source (the denylist-bearing revision of `lib/github.ts`, its
`fetchTopicRepos`, `fetchFileContent`, `getNonServerPaths`,
`findPotentialServers` and `storeNonServer`, together with the
`NonServerSchema` validator of `lib/schema.ts`).  Network responses and disk
state are passed explicitly; JavaScript exceptions are modelled with `Except`.
-/

namespace McpAlmanac

/-- The projection of a GitHub search item kept by `MiniItemSchema`
(`lib/schema.ts`): id, name, nullable description, owner login, html URL and
default branch.  The schema constrains `owner.login` to be non-empty
(`z.string().min(1)`); that value-level constraint is re-checked where the
source re-parses (`MiniItemSchema.parse`). -/
structure MiniItem where
  id : Int
  name : String
  description : Option String
  owner_login : String
  html_url : String
  default_branch : String
deriving DecidableEq

/-- The `bin` field of a package manifest: either a single path string or a
mapping of command name to path (`z.union([z.string(), z.record(...)])`). -/
inductive BinField
  | binStr (s : String)
  | binMap (entries : List (String × String))
deriving DecidableEq

/-- The subset of a package manifest inspected by the classifier
(`z.object({bin, dependencies, devDependencies})` in `findPotentialServers`).
Dependency maps are modelled as association lists. -/
structure Manifest where
  bin : Option BinField := none
  dependencies : Option (List (String × String)) := none
  devDependencies : Option (List (String × String)) := none
deriving DecidableEq

/-- The SDK package name the classifier looks for. -/
def sdkName : String := "@modelcontextprotocol/sdk"

/-- JavaScript `obj?.[key]`: `none` when the map is absent or the key missing,
otherwise the stored value. -/
def lookupRecord : Option (List (String × String)) → String → Option String
  | none, _ => none
  | some entries, key => (entries.find? (fun e => e.1 == key)).map (fun e => e.2)

/-- JavaScript truthiness of a string: `!!s` is `false` exactly on `""`. -/
def jsTruthyStr (s : String) : Bool := s != ""

/-- `const hasBin = !!pkg.bin` — an absent field is falsy, a string is truthy
iff non-empty, and an object (even `{}`) is always truthy. -/
def hasBinOf (m : Manifest) : Bool :=
  match m.bin with
  | none => false
  | some (.binStr s) => jsTruthyStr s
  | some (.binMap _) => true

/-- `!!pkg.dependencies?.[sdk] || !!pkg.devDependencies?.[sdk]` — the looked-up
version string itself goes through JS truthiness, so an empty version string
is treated like an absent entry. -/
def hasSdkDepOf (m : Manifest) : Bool :=
  (match lookupRecord m.dependencies sdkName with
    | none => false
    | some v => jsTruthyStr v) ||
  (match lookupRecord m.devDependencies sdkName with
    | none => false
    | some v => jsTruthyStr v)

/-- `hasBin && hasSdkDep`: the acceptance decision of the classifier. -/
def isServer (m : Manifest) : Bool := hasBinOf m && hasSdkDepOf m

/-- Spec-worded `hasBin`: "true iff the manifest has a non-empty `bin` field
(string or mapping form, either counts)". -/
def specHasBin (m : Manifest) : Bool :=
  match m.bin with
  | none => false
  | some (.binStr s) => s != ""
  | some (.binMap entries) => !entries.isEmpty

/-- Spec-worded `hasSdkDependency`: "true iff the literal package name appears
as a key in either mapping (value/version string is irrelevant)". -/
def specHasSdkDep (m : Manifest) : Bool :=
  (match m.dependencies with
    | none => false
    | some entries => entries.any (fun e => e.1 == sdkName)) ||
  (match m.devDependencies with
    | none => false
    | some entries => entries.any (fun e => e.1 == sdkName))

/-- Spec-worded classifier decision: `isServer = hasBin AND hasSdkDependency`. -/
def specIsServer (m : Manifest) : Bool := specHasBin m && specHasSdkDep m

/-- A manifest with a non-empty `bin` string and the SDK listed with an empty
version string: the spec counts it as a server, the code does not. -/
def cexManifest : Manifest :=
  { bin := some (.binStr "cli.js")
    dependencies := some [(sdkName, "")]
    devDependencies := none }

/-- JavaScript exceptions observable from the pipeline: assertion failures
thrown by `@sindresorhus/is` asserts, `ZodError`s thrown by `.parse`, and
errors rethrown from a `catch` block. -/
inductive RunErr
  | assertFail
  | zodError
  | rethrown
deriving DecidableEq

/-- The upstream outcome of one search-page request in `fetchTopicRepos`:
the response is not ok, the page envelope fails
`GitHubSearchResponseSchema.safeParse`, or an `items` array is delivered.
Each item is `some m` when `MiniItemSchema.safeParse` succeeds with `m` and
`none` when that per-item validation fails. -/
inductive PageResult
  | fetchError
  | parseError
  | items (entries : List (Option MiniItem))
deriving DecidableEq

/-- The inner `for (const item of data.items)` loop: push each validated item,
skip invalid ones, and break as soon as the accumulator reaches the limit. -/
def pushItems (repoLimit : Nat) (acc : List MiniItem) :
    List (Option MiniItem) → List MiniItem
  | [] => acc
  | none :: rest => pushItems repoLimit acc rest
  | some item :: rest =>
    let acc' := acc ++ [item]
    if repoLimit ≤ acc'.length then acc' else pushItems repoLimit acc' rest

/-- The `while (allRepos.length < repoLimit)` pagination loop of
`fetchTopicRepos`, one list entry per upstream page, consumed in page order.
Returns the loop outcome together with the 1-based page numbers actually
requested.  A response with `ok` false hits `assert.truthy(response.ok, ...)`
and throws before the subsequent `if (!response.ok) break` can run; an
envelope parse failure or an empty `items` array breaks the loop. -/
def goPages (repoLimit : Nat) (acc : List MiniItem) (page : Nat) :
    List PageResult → Except RunErr (List MiniItem) × List Nat
  | [] => (.ok acc, [])
  | pr :: rest =>
    if repoLimit ≤ acc.length then (.ok acc, [])
    else
      match pr with
      | .fetchError => (.error .assertFail, [page])
      | .parseError => (.ok acc, [page])
      | .items entries =>
        if entries.length = 0 then (.ok acc, [page])
        else
          let acc' := pushItems repoLimit acc entries
          if repoLimit ≤ acc'.length then (.ok acc', [page])
          else
            let res := goPages repoLimit acc' (page + 1) rest
            (res.1, page :: res.2)

/-- `fetchTopicRepos({topic, repoLimit})`: asserts a non-empty topic and a
positive integer limit, then runs the pagination loop starting at page 1. -/
def fetchTopicRepos (topic : String) (repoLimit : Int) (pages : List PageResult) :
    Except RunErr (List MiniItem) × List Nat :=
  if topic = "" then (.error .assertFail, [])
  else if repoLimit ≤ 0 then (.error .assertFail, [])
  else goPages repoLimit.toNat [] 1 pages

/-- An upstream that never runs out before the driver stops on its own: every
page is a well-formed envelope whose items all validate and are non-empty. -/
def goodEnv (pages : List PageResult) : Prop :=
  ∀ pr ∈ pages, ∃ entries : List MiniItem,
    pr = .items (entries.map some) ∧ entries ≠ []

/-- Total number of items offered by the upstream across all pages. -/
def envTotal (pages : List PageResult) : Nat :=
  (pages.map (fun pr => match pr with
    | .items entries => entries.length
    | _ => 0)).sum

/-- A concrete repository summary for instantiating theorems. -/
def sampleRepo (n : Int) : MiniItem :=
  { id := n
    name := "repo" ++ toString n
    description := none
    owner_login := "acme"
    html_url := "https://example.test/r"
    default_branch := "main" }

/-- Character-level split, the semantics of JavaScript
`string.split(sep)` for a one-character separator: always returns at least
one (possibly empty) piece. -/
def splitOnChar (sep : Char) : List Char → List (List Char)
  | [] => [[]]
  | c :: rest =>
    match splitOnChar sep rest with
    | [] => [[]]
    | h :: t => if c = sep then [] :: h :: t else (c :: h) :: t

/-- JavaScript `s.split(sep)` for a one-character separator, on Lean strings. -/
def jsSplit (sep : Char) (s : String) : List String :=
  (splitOnChar sep s.data).map (fun l => String.mk l)

/-- JavaScript `s.trim()`: strip whitespace from both ends. -/
def jsTrim (s : String) : String :=
  String.mk (((s.data.dropWhile Char.isWhitespace).reverse.dropWhile
    Char.isWhitespace).reverse)

/-- The header line written on first creation of `data/non-servers.csv`. -/
def csvHeader : String := "repoPath,lastChecked\n"

/-- The repository path used as the denylist key: owner login and name joined
by a slash. -/
def mkRepoPath (repo : MiniItem) : String :=
  repo.owner_login ++ "/" ++ repo.name

/-- `storeNonServer(repo)`: the CSV file contents after recording a rejection.
The store is modelled as `Option String` (`none` = file absent).  On first
creation the header row is written; the entry line
`` `${repoPath},${lastChecked}\n` `` is then appended (`flag: "a"`). -/
def storeNonServer (repo : MiniItem) (lastChecked : String)
    (file : Option String) : String :=
  let csvLine := mkRepoPath repo ++ "," ++ lastChecked ++ "\n"
  let base := match file with
    | none => csvHeader
    | some c => c
  base ++ csvLine

/-- `getNonServerPaths()`: read the CSV store, skip the header line, skip
blank lines, and collect the text before the first comma of each line.  An
absent file yields the empty set (modelled as a list of paths). -/
def getNonServerPaths (file : Option String) : List String :=
  match file with
  | none => []
  | some content =>
    ((jsSplit '\n' content).drop 1).filterMap (fun line =>
      if jsTrim line = "" then none
      else some ((jsSplit ',' line).headD ""))

/-- The `repoPath` refinement of `NonServerSchema` (`lib/schema.ts`):
`const [owner, name] = path.split("/"); return owner && name;` — zod accepts
the record iff the returned value is truthy, i.e. iff the first two pieces of
the split both exist and are non-empty. -/
def validateRepoPath (path : String) : Bool :=
  match jsSplit '/' path with
  | owner :: name :: _ => owner != "" && name != ""
  | _ => false

/-- Store states reachable by the record operation: either no file yet, or
contents ending in a newline (both the header row and every appended entry
line end in `\n`). -/
def memoWF : Option String → Prop
  | none => True
  | some c => ∃ c', c = c' ++ "\n"

/-- A well-formed repository, path "acme/widget". -/
def widgetRepo : MiniItem :=
  { id := 7
    name := "widget"
    description := none
    owner_login := "acme"
    html_url := "https://example.test/acme/widget"
    default_branch := "main" }

/-- A repository whose owner login contains a comma; `MiniItemSchema` only
requires the login to be a non-empty string, so this value passes validation
and its path "a,b/c" reaches the CSV writer unescaped. -/
def commaRepo : MiniItem :=
  { id := 1
    name := "c"
    description := none
    owner_login := "a,b"
    html_url := "https://example.test/r"
    default_branch := "main" }

/-- A repository whose name is the empty string; `MiniItemSchema` constrains
only `owner.login` to be non-empty (`z.string().min(1)`), the `name` field is
a plain `z.string()`, so this value passes validation and its path is "a/". -/
def emptyNameRepo : MiniItem :=
  { id := 2
    name := ""
    description := none
    owner_login := "a"
    html_url := "https://example.test/r"
    default_branch := "main" }

/-- The body delivered with a file-content response, abstracted to what the
pipeline inspects: `badJson` means `response.json()` throws, `emptyObj` means
the parsed value fails `assert.nonEmptyObject`, and `objBody m` is a
non-empty JSON object whose subsequent manifest-schema parse yields `some m`
(success) or `none` (a thrown `ZodError`). -/
inductive FileBody
  | badJson
  | emptyObj
  | objBody (manifest : Option Manifest)
deriving DecidableEq

/-- One HTTP response to a file-content request. -/
structure FileResponse where
  status : Nat
  body : FileBody
deriving DecidableEq

/-- The `ok` flag of a fetch `Response`: status in the 2xx range. -/
def respOk (status : Nat) : Bool := 200 ≤ status && status ≤ 299

/-- `fetchFileContent({path, repo})` of the denylist-bearing revision: the
options are schema-validated (a repo with an empty owner login throws a
`ZodError`); a 404 response returns `null`; any other non-ok response logs
and returns `null`; a body that fails `response.json()` or the
`assert.nonEmptyObject` check throws inside the `try` and the `catch` block
rethrows.  `Except.ok none` models the `null` return, `Except.ok (some m?)`
models returning the raw JSON object (tagged with the outcome `m?` of the
caller's later manifest-schema parse). -/
def fetchFileContent (login _name _path : String) (resp : FileResponse) :
    Except RunErr (Option (Option Manifest)) :=
  if login = "" then .error .zodError
  else if resp.status = 404 then .ok none
  else if !(respOk resp.status) then .ok none
  else
    match resp.body with
    | .badJson => .error .rethrown
    | .emptyObj => .error .rethrown
    | .objBody m => .ok (some m)

/-- The per-repository loop body of `findPotentialServers`, iterated over the
fetched repositories.  State: accepted servers so far, the paths for which a
manifest fetch has been issued (the trace), and the denylist file contents.
A repository whose path is in the memo is skipped before any fetch; a `null`
manifest is a logged skip; a manifest-schema failure throws; a classified
non-server is appended to the CSV store. -/
def runRepos (fenv : String → FileResponse) (memo : List String) (ts : String) :
    List MiniItem → List MiniItem → List String → Option String →
    Except RunErr (List MiniItem) × List String × Option String
  | [], acc, trace, store => (.ok acc, trace, store)
  | repo :: rest, acc, trace, store =>
    if repo.owner_login = "" then (.error .zodError, trace, store)
    else
      if memo.contains (mkRepoPath repo) then
        runRepos fenv memo ts rest acc trace store
      else
        match fetchFileContent repo.owner_login repo.name "package.json"
            (fenv (mkRepoPath repo)) with
        | .error e => (.error e, trace ++ [mkRepoPath repo], store)
        | .ok none => runRepos fenv memo ts rest acc (trace ++ [mkRepoPath repo]) store
        | .ok (some none) => (.error .zodError, trace ++ [mkRepoPath repo], store)
        | .ok (some (some m)) =>
          if isServer m then
            runRepos fenv memo ts rest (acc ++ [repo]) (trace ++ [mkRepoPath repo]) store
          else
            runRepos fenv memo ts rest acc (trace ++ [mkRepoPath repo])
              (some (storeNonServer repo ts store))

/-- The tail of `findPotentialServers` after the classification loop:
`assert.nonEmptyArray(potentialServers, ...)` throws on an empty accepted
list, otherwise the accepted list is returned. -/
def finishRun :
    Except RunErr (List MiniItem) × List String × Option String →
    Except RunErr (List MiniItem) × List String × Option String
  | (.error e, trace, store) => (.error e, trace, store)
  | (.ok accepted, trace, store) =>
    if accepted.isEmpty then (.error .assertFail, trace, store)
    else (.ok accepted, trace, store)

/-- `findPotentialServers({repoLimit})` of the denylist-bearing revision:
load the memo, fetch up to `repoLimit` repositories for topic "mcp-server"
(`assert.nonEmptyArray` on the result), classify each repository, and
`assert.nonEmptyArray` on the accepted list before returning it.  Result:
the outcome, the trace of repository paths whose manifest was fetched, and
the final denylist file contents. -/
def findPotentialServers (repoLimit : Int) (pages : List PageResult)
    (fenv : String → FileResponse) (ts : String) (store0 : Option String) :
    Except RunErr (List MiniItem) × List String × Option String :=
  match (fetchTopicRepos "mcp-server" repoLimit pages).1 with
  | .error e => (.error e, [], store0)
  | .ok repos =>
    if repos.isEmpty then (.error .assertFail, [], store0)
    else finishRun (runRepos fenv (getNonServerPaths store0) ts repos [] [] store0)

/-- A manifest satisfying both classification criteria. -/
def goodManifest : Manifest :=
  { bin := some (.binStr "dist/cli.js")
    dependencies := some [(sdkName, "1.0.0")]
    devDependencies := none }

/-- A file environment whose every response is a well-formed manifest
passing classification. -/
def goodFenv : String → FileResponse :=
  fun _ => { status := 200, body := .objBody (some goodManifest) }

/-- A file environment whose every response is a 200 whose body fails
the manifest schema parse (for example `bin` holding a number). -/
def badManifestFenv : String → FileResponse :=
  fun _ => { status := 200, body := .objBody none }

end McpAlmanac

namespace McpAlmanac

/-- Claim C1 (counterexample): the classifier is claimed to decide
`isServer = true` whenever a non-empty `bin` is present and the SDK name is a
key of `dependencies`, "any version value, including the empty string"
counting as present.  On the manifest
`{bin: "cli.js", dependencies: {"@modelcontextprotocol/sdk": ""}}` the
spec-worded decision is `true` but the code decides `false`, because
`!!pkg.dependencies?.[...]` applies JS truthiness to the version string. -/
theorem classifier_spec_mismatch :
    specIsServer cexManifest = true ∧ isServer cexManifest = false := by
  constructor <;> rfl

/-- Claim C1 (amended): the classifier decides `isServer = true` iff the
manifest has a `bin` field that is a non-empty string or is in mapping form
(an empty mapping also counts), and the SDK package name appears in
`dependencies` or `devDependencies` with a non-empty version string (an empty
version string does not count). -/
theorem isServer_characterization (m : Manifest) :
    isServer m = true ↔
      ((∃ s, m.bin = some (.binStr s) ∧ s ≠ "") ∨
        (∃ entries, m.bin = some (.binMap entries))) ∧
      ((∃ v, lookupRecord m.dependencies sdkName = some v ∧ v ≠ "") ∨
        (∃ v, lookupRecord m.devDependencies sdkName = some v ∧ v ≠ "")) := by
  unfold isServer hasBinOf hasSdkDepOf jsTruthyStr
  constructor
  · intro h
    rw [Bool.and_eq_true] at h
    obtain ⟨hbin, hsdk⟩ := h
    constructor
    · match hb : m.bin with
      | none => rw [hb] at hbin; exact absurd hbin (by simp)
      | some (.binStr s) =>
        rw [hb] at hbin
        simp only [bne_iff_ne, ne_eq] at hbin
        exact Or.inl ⟨s, rfl, hbin⟩
      | some (.binMap entries) => exact Or.inr ⟨entries, rfl⟩
    · rw [Bool.or_eq_true] at hsdk
      rcases hsdk with hdep | hdev
      · match hd : lookupRecord m.dependencies sdkName with
        | none => rw [hd] at hdep; exact absurd hdep (by simp)
        | some v =>
          rw [hd] at hdep
          simp only [bne_iff_ne, ne_eq] at hdep
          exact Or.inl ⟨v, rfl, hdep⟩
      · match hd : lookupRecord m.devDependencies sdkName with
        | none => rw [hd] at hdev; exact absurd hdev (by simp)
        | some v =>
          rw [hd] at hdev
          simp only [bne_iff_ne, ne_eq] at hdev
          exact Or.inr ⟨v, rfl, hdev⟩
  · intro ⟨hbin, hsdk⟩
    rw [Bool.and_eq_true]
    constructor
    · rcases hbin with ⟨s, hb, hs⟩ | ⟨entries, hb⟩
      · rw [hb]; simpa using hs
      · rw [hb]
    · rw [Bool.or_eq_true]
      rcases hsdk with ⟨v, hd, hv⟩ | ⟨v, hd, hv⟩
      · exact Or.inl (by rw [hd]; simpa using hv)
      · exact Or.inr (by rw [hd]; simpa using hv)

theorem pushItems_length_le (repoLimit : Nat) :
    ∀ (entries : List (Option MiniItem)) (acc : List MiniItem),
      acc.length < repoLimit → (pushItems repoLimit acc entries).length ≤ repoLimit
  | [], acc, h => by
    simpa [pushItems] using Nat.le_of_lt h
  | none :: rest, acc, h => by
    simpa [pushItems] using pushItems_length_le repoLimit rest acc h
  | some item :: rest, acc, h => by
    simp only [pushItems]
    split
    · simpa using h
    · rename_i hlt
      exact pushItems_length_le repoLimit rest (acc ++ [item])
        (by simp only [List.length_append, List.length_cons, List.length_nil] at hlt ⊢
            omega)

theorem goPages_length_le (repoLimit : Nat) :
    ∀ (pages : List PageResult) (acc : List MiniItem) (page : Nat),
      acc.length ≤ repoLimit →
      ∀ l, (goPages repoLimit acc page pages).1 = .ok l → l.length ≤ repoLimit
  | [], acc, page, hacc, l, hl => by
    simp only [goPages] at hl
    cases hl
    exact hacc
  | pr :: rest, acc, page, hacc, l, hl => by
    simp only [goPages] at hl
    split at hl
    · cases hl; exact hacc
    · rename_i hlt
      match pr with
      | .fetchError => simp at hl
      | .parseError =>
        simp only at hl
        cases hl
        exact hacc
      | .items entries =>
        simp only at hl
        split at hl
        · cases hl; exact hacc
        · have hpush : (pushItems repoLimit acc entries).length ≤ repoLimit :=
            pushItems_length_le repoLimit entries acc (by omega)
          split at hl
          · cases hl; exact hpush
          · exact goPages_length_le repoLimit rest (pushItems repoLimit acc entries)
              (page + 1) hpush l hl

theorem pushItems_length_allValid (repoLimit : Nat) :
    ∀ (entries : List MiniItem) (acc : List MiniItem),
      acc.length < repoLimit →
      (pushItems repoLimit acc (entries.map some)).length =
        min repoLimit (acc.length + entries.length)
  | [], acc, h => by
    simp [pushItems, Nat.min_eq_right (Nat.le_of_lt h)]
  | item :: rest, acc, h => by
    simp only [List.map_cons, pushItems]
    split
    · rename_i hge
      simp only [List.length_append, List.length_cons, List.length_nil] at hge ⊢
      omega
    · rename_i hlt
      rw [pushItems_length_allValid repoLimit rest (acc ++ [item])
        (by simp at hlt ⊢; omega)]
      simp only [List.length_append, List.length_cons, List.length_nil]
      omega

theorem goPages_complete (repoLimit : Nat) :
    ∀ (pages : List PageResult) (acc : List MiniItem) (page : Nat),
      goodEnv pages → acc.length ≤ repoLimit →
      repoLimit ≤ acc.length + envTotal pages →
      ∃ l, (goPages repoLimit acc page pages).1 = .ok l ∧ l.length = repoLimit
  | [], acc, page, _, hle, hge => by
    refine ⟨acc, by simp [goPages], ?_⟩
    simp [envTotal] at hge
    omega
  | pr :: rest, acc, page, hgood, hle, hge => by
    obtain ⟨entries, hpr, hne⟩ := hgood pr (List.mem_cons_self pr rest)
    subst hpr
    simp only [goPages]
    split
    · rename_i hstop
      exact ⟨acc, rfl, Nat.le_antisymm hle hstop⟩
    · rename_i hlt
      have hlen : (entries.map some).length ≠ 0 := by
        simpa using hne
      rw [if_neg hlen]
      have hpush := pushItems_length_allValid repoLimit entries acc (by omega)
      split
      · rename_i hdone
        refine ⟨pushItems repoLimit acc (entries.map some), rfl, ?_⟩
        rw [hpush] at hdone ⊢
        omega
      · rename_i hmore
        have hrest : goodEnv rest := fun p hp => hgood p (List.mem_cons_of_mem _ hp)
        have htot : envTotal (PageResult.items (entries.map some) :: rest) =
            entries.length + envTotal rest := by
          simp [envTotal]
        obtain ⟨l, hl, hlen'⟩ := goPages_complete repoLimit rest
          (pushItems repoLimit acc (entries.map some)) (page + 1) hrest
          (by rw [hpush] at hmore ⊢; omega)
          (by rw [hpush] at hmore ⊢; rw [htot] at hge; omega)
        exact ⟨l, hl, hlen'⟩

theorem goPages_trace_le (repoLimit : Nat) :
    ∀ (pages : List PageResult) (acc : List MiniItem) (page : Nat) (i : Nat),
      pages[i]? = some (.items []) →
      ∀ q ∈ (goPages repoLimit acc page pages).2, q ≤ page + i
  | [], _, _, i, h => by simp at h
  | pr :: rest, acc, page, i, h => by
    intro q hq
    simp only [goPages] at hq
    split at hq
    · simp at hq
    · match pr with
      | .fetchError =>
        simp only at hq
        simp at hq
        omega
      | .parseError =>
        simp only at hq
        simp at hq
        omega
      | .items entries =>
        simp only at hq
        split at hq
        · simp at hq
          omega
        · rename_i hlen
          match i with
          | 0 =>
            simp only [List.getElem?_cons_zero, Option.some.injEq,
              PageResult.items.injEq] at h
            rw [h] at hlen
            simp at hlen
          | j + 1 =>
            simp only [List.getElem?_cons_succ] at h
            split at hq
            · simp at hq
              omega
            · simp only [List.mem_cons] at hq
              rcases hq with rfl | hq
              · omega
              · have := goPages_trace_le repoLimit rest
                  (pushItems repoLimit acc entries) (page + 1) j h q hq
                omega

/-- Claim C2: for every non-empty topic and positive limit, the pagination
driver returns (when it returns) at most `limit` validated summaries; and when
the upstream offers at least `limit` valid items without being exhausted
(every page well-formed, non-empty and fully valid), exactly `limit` are
returned — so the result is shorter than the limit only when the upstream
runs out first. -/
theorem fetchTopicRepos_respects_limit (topic : String) (repoLimit : Int)
    (pages : List PageResult) (h1 : topic ≠ "") (h2 : 0 < repoLimit) :
    (∀ l, (fetchTopicRepos topic repoLimit pages).1 = .ok l →
      l.length ≤ repoLimit.toNat) ∧
    (goodEnv pages → repoLimit.toNat ≤ envTotal pages →
      ∃ l, (fetchTopicRepos topic repoLimit pages).1 = .ok l ∧
        l.length = repoLimit.toNat) := by
  have hneg : ¬ repoLimit ≤ 0 := by omega
  constructor
  · intro l hl
    rw [fetchTopicRepos, if_neg h1, if_neg hneg] at hl
    exact goPages_length_le repoLimit.toNat pages [] 1 (by simp) l hl
  · intro hgood htot
    rw [fetchTopicRepos, if_neg h1, if_neg hneg]
    exact goPages_complete repoLimit.toNat pages [] 1 hgood (by simp) (by simpa using htot)

/-- Claim C2 witness: with limit 3 and a page of four valid items, the driver
returns exactly the first three. -/
theorem fetchTopicRepos_respects_limit_witness :
    ("mcp-server" ≠ "") ∧ ((0:Int) < 3) ∧
      [sampleRepo 1, sampleRepo 2, sampleRepo 3].length ≤ (3:Int).toNat :=
  ⟨by decide, by decide,
    (fetchTopicRepos_respects_limit "mcp-server" 3
      [.items [some (sampleRepo 1), some (sampleRepo 2),
        some (sampleRepo 3), some (sampleRepo 4)]]
      (by decide) (by decide)).1
      [sampleRepo 1, sampleRepo 2, sampleRepo 3] rfl⟩

/-- Claim C3: when a search-page response is not successful, the run does NOT
degrade gracefully: `assert.truthy(response.ok, ...)` throws before the
`if (!response.ok) break` branch (which is unreachable), so the driver aborts
with an assertion error instead of returning the accumulated items. -/
theorem page_fetch_error_aborts_run :
    fetchTopicRepos "mcp-server" 5 [.fetchError] = (.error .assertFail, [1]) := rfl

/-- Claim C9: if the provider returns an empty `items` array for the page at
0-based position `i` (1-based page number `i + 1`), then every page number the
driver ever requests is at most `i + 1`: pagination stops there and no later
page is requested. -/
theorem empty_page_stops_pagination (topic : String) (repoLimit : Int)
    (pages : List PageResult) (i : Nat)
    (h : pages[i]? = some (.items []))
    (q : Nat) (hq : q ∈ (fetchTopicRepos topic repoLimit pages).2) :
    q ≤ i + 1 := by
  rw [fetchTopicRepos] at hq
  split at hq
  · simp at hq
  · split at hq
    · simp at hq
    · have := goPages_trace_le repoLimit.toNat pages [] 1 i h q hq
      omega

/-- Claim C9 witness: a single empty page is requested (page 1) and the bound
holds for it. -/
theorem empty_page_stops_pagination_witness :
    ([PageResult.items []][0]? = some (PageResult.items [])) ∧
      (1 ∈ (fetchTopicRepos "mcp-server" 5 [PageResult.items []]).2) ∧ 1 ≤ 0 + 1 :=
  ⟨rfl, by decide,
    empty_page_stops_pagination "mcp-server" 5 [PageResult.items []] 0 rfl 1 (by decide)⟩

theorem mk_data (s : String) : String.mk s.data = s := rfl

theorem splitOnChar_cons (sep c : Char) (rest : List Char) (h : List Char)
    (t : List (List Char)) (hs : splitOnChar sep rest = h :: t) :
    splitOnChar sep (c :: rest)
      = if c = sep then [] :: h :: t else (c :: h) :: t := by
  rw [splitOnChar, hs]

theorem splitOnChar_ne_nil (sep : Char) (l : List Char) :
    splitOnChar sep l ≠ [] := by
  induction l with
  | nil => simp [splitOnChar]
  | cons c rest ih =>
    obtain ⟨h, t, hs⟩ := List.exists_cons_of_ne_nil ih
    rw [splitOnChar_cons sep c rest h t hs]
    split <;> simp

theorem splitOnChar_append_cons (sep : Char) (b : List Char) :
    ∀ a : List Char,
      splitOnChar sep (a ++ sep :: b) = splitOnChar sep a ++ splitOnChar sep b := by
  intro a
  induction a with
  | nil =>
    obtain ⟨h, t, hs⟩ := List.exists_cons_of_ne_nil (splitOnChar_ne_nil sep b)
    rw [List.nil_append, splitOnChar_cons sep sep b h t hs, if_pos rfl, hs]
    rfl
  | cons c a' ih =>
    obtain ⟨h, t, hs⟩ := List.exists_cons_of_ne_nil (splitOnChar_ne_nil sep a')
    have hs2 : splitOnChar sep (a' ++ sep :: b) = h :: (t ++ splitOnChar sep b) := by
      rw [ih, hs, List.cons_append]
    rw [List.cons_append, splitOnChar_cons sep c _ _ _ hs2,
      splitOnChar_cons sep c _ _ _ hs]
    split <;> simp

theorem splitOnChar_of_not_mem (sep : Char) :
    ∀ a : List Char, sep ∉ a → splitOnChar sep a = [a] := by
  intro a
  induction a with
  | nil => intro _; rfl
  | cons c a' ih =>
    intro h
    have hc : ¬ c = sep := fun he => h (he ▸ List.mem_cons_self c a')
    have ha' : sep ∉ a' := fun hm => h (List.mem_cons_of_mem c hm)
    simp [splitOnChar, ih ha', hc]

theorem mem_dropWhile_ws {c : Char} (hc : ¬ c.isWhitespace) :
    ∀ {l : List Char}, c ∈ l → c ∈ l.dropWhile Char.isWhitespace := by
  intro l hm
  induction l with
  | nil => simp at hm
  | cons a l' ih =>
    rw [List.dropWhile_cons]
    split
    · rename_i ha
      rcases List.mem_cons.mp hm with rfl | hm'
      · exact absurd ha hc
      · exact ih hm'
    · exact hm

theorem jsTrim_ne_empty {s : String} {c : Char} (hc : ¬ c.isWhitespace)
    (hm : c ∈ s.data) : jsTrim s ≠ "" := by
  intro h
  have hdat : (((s.data.dropWhile Char.isWhitespace).reverse.dropWhile
      Char.isWhitespace).reverse) = [] := by
    have := congrArg String.data h
    simpa [jsTrim] using this
  have h1 := mem_dropWhile_ws hc hm
  have h2 : c ∈ (s.data.dropWhile Char.isWhitespace).reverse :=
    List.mem_reverse.mpr h1
  have h3 := mem_dropWhile_ws hc h2
  have h4 : c ∈ (((s.data.dropWhile Char.isWhitespace).reverse.dropWhile
      Char.isWhitespace).reverse) := List.mem_reverse.mpr h3
  rw [hdat] at h4
  simp at h4

theorem roundtrip_core (b path ts : String)
    (hp1 : ',' ∉ path.data) (hp2 : '\n' ∉ path.data)
    (ht1 : ',' ∉ ts.data) (ht2 : '\n' ∉ ts.data) :
    path ∈ getNonServerPaths (some ((b ++ "\n") ++ (path ++ "," ++ ts ++ "\n"))) := by
  have hn : ("\n" : String).data = ['\n'] := rfl
  have hc : ("," : String).data = [','] := rfl
  have hnl : '\n' ∉ path.data ++ ',' :: ts.data := by
    intro hmem
    rcases List.mem_append.mp hmem with hx | hx
    · exact hp2 hx
    · rcases List.mem_cons.mp hx with hx | hx
      · exact absurd hx (by decide)
      · exact ht2 hx
  have hdata : ((b ++ "\n") ++ (path ++ "," ++ ts ++ "\n")).data
      = b.data ++ '\n' :: ((path.data ++ ',' :: ts.data) ++ '\n' :: []) := by
    simp only [String.data_append, hn, hc]
    simp [List.append_assoc]
  have hmkempty : String.mk [] = "" := rfl
  have hsplitAll : jsSplit '\n' ((b ++ "\n") ++ (path ++ "," ++ ts ++ "\n"))
      = (splitOnChar '\n' b.data).map String.mk
        ++ [String.mk (path.data ++ ',' :: ts.data), ""] := by
    unfold jsSplit
    rw [hdata, splitOnChar_append_cons, splitOnChar_append_cons,
      splitOnChar_of_not_mem '\n' _ hnl]
    simp [splitOnChar, hmkempty]
  have htrim : jsTrim (String.mk (path.data ++ ',' :: ts.data)) ≠ "" := by
    refine jsTrim_ne_empty (c := ',') (by decide) ?_
    show ',' ∈ path.data ++ ',' :: ts.data
    exact List.mem_append_right _ (List.mem_cons_self ',' ts.data)
  have hsplit2 : jsSplit ',' (String.mk (path.data ++ ',' :: ts.data)) = [path, ts] := by
    unfold jsSplit
    show (splitOnChar ',' (path.data ++ ',' :: ts.data)).map String.mk = [path, ts]
    rw [splitOnChar_append_cons, splitOnChar_of_not_mem ',' path.data hp1,
      splitOnChar_of_not_mem ',' ts.data ht1]
    simp [mk_data]
  simp only [getNonServerPaths]
  rw [hsplitAll]
  obtain ⟨x, xs, hsb⟩ := List.exists_cons_of_ne_nil (splitOnChar_ne_nil '\n' b.data)
  rw [hsb]
  simp only [List.map_cons, List.cons_append, List.drop_succ_cons, List.drop_zero]
  rw [List.mem_filterMap]
  refine ⟨String.mk (path.data ++ ',' :: ts.data), by simp, ?_⟩
  show (if jsTrim (String.mk (path.data ++ ',' :: ts.data)) = "" then none
    else some ((jsSplit ',' (String.mk (path.data ++ ',' :: ts.data))).headD "")) = some path
  rw [if_neg htrim, hsplit2]
  rfl

/-- Claim C6 (counterexample): a path written by the record operation need not
survive the round trip.  `MiniItemSchema` admits an owner login containing a
comma; recording the path "a,b/c" and reloading yields a set that does NOT
contain it, because the CSV line is split at the first comma on load. -/
theorem roundtrip_fails_on_comma_path :
    mkRepoPath commaRepo = "a,b/c" ∧
    "a,b/c" ∉ getNonServerPaths
      (some (storeNonServer commaRepo "2024-01-01T00:00:00.000Z" none)) := by
  exact ⟨rfl, by decide⟩

/-- Claim C6 (amended): for every repository path containing no comma and no
newline (and a timestamp containing neither, as ISO-8601 timestamps do),
recording it in a reachable store state and reloading yields a set containing
that path; moreover the record operation writes exactly a header row followed
by the entry on first creation, and otherwise only appends to the existing
contents. -/
theorem storeNonServer_roundtrip (repo : MiniItem) (ts : String)
    (file : Option String) (hwf : memoWF file)
    (hp1 : ',' ∉ (mkRepoPath repo).data) (hp2 : '\n' ∉ (mkRepoPath repo).data)
    (ht1 : ',' ∉ ts.data) (ht2 : '\n' ∉ ts.data) :
    mkRepoPath repo ∈ getNonServerPaths (some (storeNonServer repo ts file)) ∧
    (file = none → storeNonServer repo ts file
      = csvHeader ++ (mkRepoPath repo ++ "," ++ ts ++ "\n")) ∧
    (∀ c, file = some c → storeNonServer repo ts file
      = c ++ (mkRepoPath repo ++ "," ++ ts ++ "\n")) := by
  refine ⟨?_, by rintro rfl; rfl, by intro c hcs; subst hcs; rfl⟩
  cases file with
  | none =>
    have hbase : storeNonServer repo ts none
        = ("repoPath,lastChecked" ++ "\n") ++ (mkRepoPath repo ++ "," ++ ts ++ "\n") := rfl
    rw [hbase]
    exact roundtrip_core "repoPath,lastChecked" (mkRepoPath repo) ts hp1 hp2 ht1 ht2
  | some c =>
    obtain ⟨c', rfl⟩ := hwf
    have hbase : storeNonServer repo ts (some (c' ++ "\n"))
        = (c' ++ "\n") ++ (mkRepoPath repo ++ "," ++ ts ++ "\n") := rfl
    rw [hbase]
    exact roundtrip_core c' (mkRepoPath repo) ts hp1 hp2 ht1 ht2

/-- Claim C6 witness: recording "acme/widget" into an absent store and
reloading yields a set containing "acme/widget". -/
theorem storeNonServer_roundtrip_witness :
    memoWF (none : Option String) ∧
    mkRepoPath widgetRepo ∈ getNonServerPaths
      (some (storeNonServer widgetRepo "2024-01-01T00:00:00.000Z" none)) :=
  ⟨trivial,
    (storeNonServer_roundtrip widgetRepo "2024-01-01T00:00:00.000Z" none trivial
      (by decide) (by decide) (by decide) (by decide)).1⟩

/-- Claim C8 (counterexample): the pipeline's write path does not invoke the
rejection-record validator.  A schema-valid repository with an empty name
(admitted by `MiniItemSchema`, which constrains only `owner.login`) produces
the path "a/", which the `NonServerSchema` refinement rejects, yet
`storeNonServer` writes it to the persisted store, where a reload finds it. -/
theorem malformed_path_written :
    validateRepoPath (mkRepoPath emptyNameRepo) = false ∧
    emptyNameRepo.owner_login ≠ "" ∧
    mkRepoPath emptyNameRepo ∈ getNonServerPaths
      (some (storeNonServer emptyNameRepo "2024-01-01T00:00:00.000Z" none)) := by
  refine ⟨by decide, by decide, by decide⟩

/-- Claim C8 (amended): the rejection-record validator accepts a candidate
path exactly when splitting it on "/" yields a first and a second piece that
are both non-empty (extra pieces are tolerated); every path without such a
split is rejected.  However, the pipeline's write path (`storeNonServer`)
never invokes the validator, so a malformed path such as "a/" (from a
repository whose name is empty) is still written to the store. -/
theorem validateRepoPath_spec :
    (∀ path : String, validateRepoPath path = true ↔
      ∃ owner name rest, jsSplit '/' path = owner :: name :: rest ∧
        owner ≠ "" ∧ name ≠ "") ∧
    validateRepoPath "a/" = false ∧
    mkRepoPath emptyNameRepo ∈ getNonServerPaths
      (some (storeNonServer emptyNameRepo "2024-02-02T00:00:00.000Z" none)) := by
  refine ⟨?_, by decide, by decide⟩
  intro path
  unfold validateRepoPath
  cases hs : jsSplit '/' path with
  | nil =>
    simp only [Bool.false_eq_true, false_iff]
    rintro ⟨o, n, r, hr, -, -⟩
    simp at hr
  | cons a t =>
    cases t with
    | nil =>
      simp only [Bool.false_eq_true, false_iff]
      rintro ⟨o, n, r, hr, -, -⟩
      simp at hr
    | cons b t' =>
      constructor
      · intro h
        rw [Bool.and_eq_true, bne_iff_ne, bne_iff_ne] at h
        exact ⟨a, b, t', rfl, h.1, h.2⟩
      · rintro ⟨o, n, r, hr, ho, hn⟩
        obtain ⟨rfl, rfl, rfl⟩ : a = o ∧ b = n ∧ t' = r := by
          simpa using hr
        rw [Bool.and_eq_true, bne_iff_ne, bne_iff_ne]
        exact ⟨ho, hn⟩

/-- Claim C5: a 404 response to the file-content request makes the manifest
fetcher return `null` (modelled `Except.ok none`), not throw, for every
repository (with the schema-mandated non-empty owner login) and file path. -/
theorem fetchFileContent_notFound (login name path : String) (resp : FileResponse)
    (h1 : login ≠ "") (h2 : resp.status = 404) :
    fetchFileContent login name path resp = .ok none := by
  simp [fetchFileContent, h1, h2]

/-- Claim C5 witness: concrete 404 response for "acme"/"widget". -/
theorem fetchFileContent_notFound_witness :
    ("acme" ≠ "") ∧ (FileResponse.mk 404 .badJson).status = 404 ∧
      fetchFileContent "acme" "widget" "package.json" ⟨404, .badJson⟩ = .ok none :=
  ⟨by decide, rfl,
    fetchFileContent_notFound "acme" "widget" "package.json" ⟨404, .badJson⟩
      (by decide) rfl⟩

/-- Claim C4: in the denylist-bearing revision a fetched manifest that fails
to parse against the manifest schema is NOT a skip: `z.object({...}).parse`
throws a `ZodError` outside any try/catch, so the whole run aborts after the
first such repository (the earlier `scripts/update.ts` revision caught this
and continued; the current library revisions do not). -/
theorem malformed_manifest_aborts_run :
    findPotentialServers 5 [.items [some widgetRepo]] badManifestFenv
      "2024-01-01T00:00:00.000Z" none
      = (.error .zodError, [mkRepoPath widgetRepo], none) := rfl

theorem runRepos_trace_avoids_memo (fenv : String → FileResponse)
    (memo : List String) (ts : String) (p : String) (hp : p ∈ memo) :
    ∀ (repos acc : List MiniItem) (trace : List String) (store : Option String),
      p ∉ trace → p ∉ (runRepos fenv memo ts repos acc trace store).2.1
  | [], acc, trace, store, htr => by simpa [runRepos] using htr
  | repo :: rest, acc, trace, store, htr => by
    simp only [runRepos]
    split
    · simpa using htr
    · split
      · exact runRepos_trace_avoids_memo fenv memo ts p hp rest acc trace store htr
      · rename_i hmem
        have hne : p ∉ trace ++ [mkRepoPath repo] := by
          intro hmem'
          rcases List.mem_append.mp hmem' with hx | hx
          · exact htr hx
          · simp only [List.mem_singleton] at hx
            subst hx
            exact hmem (List.elem_iff.mpr hp)
        split
        · simpa using hne
        · exact runRepos_trace_avoids_memo fenv memo ts p hp rest acc _ store hne
        · simpa using hne
        · split
          · exact runRepos_trace_avoids_memo fenv memo ts p hp rest (acc ++ [repo]) _ store hne
          · exact runRepos_trace_avoids_memo fenv memo ts p hp rest acc _
              (some (storeNonServer repo ts store)) hne

theorem finishRun_snd
    (x : Except RunErr (List MiniItem) × List String × Option String) :
    (finishRun x).2 = x.2 := by
  obtain ⟨r, t, s⟩ := x
  cases r with
  | error e => rfl
  | ok a =>
    simp only [finishRun]
    split <;> rfl

theorem finishRun_ok
    (x : Except RunErr (List MiniItem) × List String × Option String)
    (accepted : List MiniItem) (h : (finishRun x).1 = .ok accepted) :
    accepted ≠ [] := by
  obtain ⟨r, t, s⟩ := x
  cases r with
  | error e => simp [finishRun] at h
  | ok a =>
    simp only [finishRun] at h
    by_cases ha : a.isEmpty
    · rw [if_pos ha] at h
      simp at h
    · rw [if_neg ha] at h
      dsimp only at h
      injection h with h2
      subst h2
      intro hnil
      exact ha (by simp [hnil])

theorem findPotentialServers_trace_shape (repoLimit : Int) (pages : List PageResult)
    (fenv : String → FileResponse) (ts : String) (store0 : Option String) :
    (findPotentialServers repoLimit pages fenv ts store0).2.1 = [] ∨
    ∃ repos, (findPotentialServers repoLimit pages fenv ts store0).2.1
      = (runRepos fenv (getNonServerPaths store0) ts repos [] [] store0).2.1 := by
  unfold findPotentialServers
  cases hfe : (fetchTopicRepos "mcp-server" repoLimit pages).1 with
  | error e => exact Or.inl rfl
  | ok repos =>
    dsimp only
    by_cases hre : repos.isEmpty
    · rw [if_pos hre]
      exact Or.inl rfl
    · rw [if_neg hre]
      exact Or.inr ⟨repos, congrArg Prod.fst (finishRun_snd _)⟩

/-- Claim C7: a repository whose path is in the rejection memo loaded at the
start of the run never has its manifest fetched: its path never enters the
trace of issued manifest fetches. -/
theorem memo_repo_never_fetched (repoLimit : Int) (pages : List PageResult)
    (fenv : String → FileResponse) (ts : String) (store0 : Option String)
    (p : String) (hp : p ∈ getNonServerPaths store0) :
    p ∉ (findPotentialServers repoLimit pages fenv ts store0).2.1 := by
  rcases findPotentialServers_trace_shape repoLimit pages fenv ts store0 with
    h0 | ⟨repos, h0⟩
  · rw [h0]
    simp
  · rw [h0]
    exact runRepos_trace_avoids_memo fenv (getNonServerPaths store0) ts p hp
      repos [] [] store0 (by simp)

/-- Claim C7 witness: a store containing "skipme/repo" keeps that path out of
the fetch trace of a concrete run. -/
theorem memo_repo_never_fetched_witness :
    ("skipme/repo" ∈ getNonServerPaths
      (some "repoPath,lastChecked\nskipme/repo,2024-01-01T00:00:00.000Z\n")) ∧
    ("skipme/repo" ∉ (findPotentialServers 5 [.items [some widgetRepo]] goodFenv
      "2024-01-01T00:00:00.000Z"
      (some "repoPath,lastChecked\nskipme/repo,2024-01-01T00:00:00.000Z\n")).2.1) :=
  ⟨by decide,
    memo_repo_never_fetched 5 [.items [some widgetRepo]] goodFenv
      "2024-01-01T00:00:00.000Z"
      (some "repoPath,lastChecked\nskipme/repo,2024-01-01T00:00:00.000Z\n")
      "skipme/repo" (by decide)⟩

/-- Claim C10: `findPotentialServers` cannot complete normally with an empty
accepted list: if the topic search yields zero repositories the
`assert.nonEmptyArray(repos, ...)` assertion throws, and a successful
completion implies at least one accepted server (otherwise
`assert.nonEmptyArray(potentialServers, ...)` throws). -/
theorem run_success_implies_nonempty (repoLimit : Int) (pages : List PageResult)
    (fenv : String → FileResponse) (ts : String) (store0 : Option String) :
    ((fetchTopicRepos "mcp-server" repoLimit pages).1 = .ok [] →
      (findPotentialServers repoLimit pages fenv ts store0).1 = .error .assertFail) ∧
    (∀ accepted, (findPotentialServers repoLimit pages fenv ts store0).1
      = .ok accepted → accepted ≠ []) := by
  constructor
  · intro h
    unfold findPotentialServers
    rw [h]
    rfl
  · intro accepted h
    unfold findPotentialServers at h
    cases hfe : (fetchTopicRepos "mcp-server" repoLimit pages).1 with
    | error e =>
      rw [hfe] at h
      simp at h
    | ok repos =>
      rw [hfe] at h
      dsimp only at h
      by_cases hre : repos.isEmpty
      · rw [if_pos hre] at h
        simp at h
      · rw [if_neg hre] at h
        exact finishRun_ok _ accepted h

/-- Claim C10 witness: an empty search result makes the run abort, and a
successful run returns a non-empty accepted list. -/
theorem run_success_implies_nonempty_witness :
    ((fetchTopicRepos "mcp-server" 3 [PageResult.items []]).1 = .ok []) ∧
    ((findPotentialServers 3 [PageResult.items []] goodFenv "T" none).1
      = .error .assertFail) ∧
    ((findPotentialServers 3 [PageResult.items [some widgetRepo]] goodFenv "T"
      none).1 = .ok [widgetRepo]) ∧
    ([widgetRepo] ≠ ([] : List MiniItem)) :=
  ⟨rfl,
    (run_success_implies_nonempty 3 [PageResult.items []] goodFenv "T" none).1 rfl,
    rfl,
    (run_success_implies_nonempty 3 [PageResult.items [some widgetRepo]] goodFenv
      "T" none).2 [widgetRepo] rfl⟩

end McpAlmanac
